import Mathlib

/-!
Verification of the oncoprint matrix-building notebook
(`6.generate-oncoprint-data.ipynb`).

The notebook's core is `process_variants`, which walks a directory of
per-sample variant tables, filters each table to rows carrying a COSMIC
annotation (`cosmic70 != '.'`), tests membership of each focus feature in
the relevant column, derives a sample identifier from the filename, and
assembles a sample-by-feature matrix sorted by sample identifier.  A second,
ad hoc pass builds an amino-acid-change presence matrix grouped by the
`final_id` field of an aggregate table.

Python string primitives used by the notebook (`str.replace`,
`str.split('_')[0]`) are modelled structurally on `List Char` so that all
definitions reduce in the kernel.
-/

namespace Oncoprint

/-- Python `s.replace(pat, rep)` for a nonempty pattern, on character lists:
scan left to right; at each position, if the pattern matches, emit the
replacement and skip the pattern, else emit one character.  The fuel is the
length of the list, which bounds the number of steps when the pattern is
nonempty. -/
def pyReplaceAux (pat rep : List Char) : Nat → List Char → List Char
  | 0, l => l
  | _ + 1, [] => []
  | fuel + 1, c :: rest =>
    if (c :: rest).take pat.length = pat then
      rep ++ pyReplaceAux pat rep fuel ((c :: rest).drop pat.length)
    else
      c :: pyReplaceAux pat rep fuel rest

/-- Python `s.replace(pattern, replacement)`: replace every non-overlapping
occurrence, scanning left to right.  An empty pattern inserts the replacement
before every character and at the end, as Python does. -/
def pyReplace (s pattern replacement : String) : String :=
  let l := s.data
  let pat := pattern.data
  let rep := replacement.data
  if pat = [] then
    ⟨rep ++ l.flatMap (fun c => c :: rep)⟩
  else
    ⟨pyReplaceAux pat rep l.length l⟩

/-- Python `fname.split('_')[0]`: the characters before the first underscore
(the whole string when it has no underscore). -/
def firstToken (fname : String) : String :=
  ⟨fname.data.takeWhile (fun c => c ≠ '_')⟩

/-- A row of a per-sample variant table, restricted to the two columns
`process_variants` reads: `cosmic70` and `Gene.refGene`. -/
structure VariantRow where
  cosmic70 : String
  geneRefGene : String
deriving DecidableEq, Repr

/-- A file of a variant directory: its filename and its loaded rows. -/
structure VariantFile where
  name : String
  rows : List VariantRow
deriving DecidableEq, Repr

/-- A value of an output matrix cell: the integer indicators 0/1 of COSMIC
mode or the strings `''` / `'MUT;'` of gene mode. -/
inductive Cell where
  | num : Nat → Cell
  | str : String → Cell
deriving DecidableEq, Repr

/-- The subsetting `variant_df[variant_df['cosmic70'] != '.']`. -/
def variantSub (rows : List VariantRow) : List VariantRow :=
  rows.filter (fun r => r.cosmic70 ≠ ".")

/-- The membership list comprehension of `process_variants`: per focus
feature, `1`/`0` against the `cosmic70` column when `process_cosmic` is
true, else `'MUT;'`/`''` against the `Gene.refGene` column. -/
def variantClassOf (processCosmic : Bool) (focusVariants : List String)
    (sub : List VariantRow) : List Cell :=
  if processCosmic then
    focusVariants.map (fun x =>
      if x ∈ sub.map VariantRow.cosmic70 then Cell.num 1 else Cell.num 0)
  else
    focusVariants.map (fun x =>
      if x ∈ sub.map VariantRow.geneRefGene then Cell.str "MUT;" else Cell.str "")

/-- The sample identifier recorded for a file: `variant_file.replace(strip_text, '')`,
overwritten, when `id_updater` is supplied, by
`variant_file.replace(variant_file.split('_')[0], id_updater[variant_file.split('_')[0]])`. -/
def deriveSampleId (stripText : String) (idUpdater : Option (String → String))
    (fname : String) : String :=
  let sampleId := pyReplace fname stripText ""
  match idUpdater with
  | none => sampleId
  | some upd => pyReplace fname (firstToken fname) (upd (firstToken fname))

/-- The dataframe `process_variants` returns: index name `'Case.ID'`, the
focus features as columns, and one `(sample id, cell row)` pair per input
file. -/
structure OncoprintDF where
  indexName : String
  columns : List String
  rows : List (String × List Cell)
deriving DecidableEq, Repr

/-- Lexicographic comparison of character lists by code point: the order in
which Python compares strings, hence the order `.sort_index()` uses on the
sample identifiers. -/
def charListLE : List Char → List Char → Bool
  | [], _ => true
  | _ :: _, [] => false
  | a :: as, b :: bs =>
    if a < b then true
    else if b < a then false
    else charListLE as bs

theorem charListLE_total : ∀ a b : List Char, charListLE a b = true ∨ charListLE b a = true
  | [], _ => Or.inl rfl
  | _ :: _, [] => Or.inr rfl
  | a :: as, b :: bs => by
    by_cases hab : a < b
    · left; simp [charListLE, hab]
    · by_cases hba : b < a
      · right; simp [charListLE, hba]
      · cases charListLE_total as bs with
        | inl h => left; simp [charListLE, hab, hba, h]
        | inr h => right; simp [charListLE, hab, hba, h]

theorem charListLE_trans : ∀ a b c : List Char,
    charListLE a b = true → charListLE b c = true → charListLE a c = true
  | [], _, _, _, _ => rfl
  | _ :: _, [], _, h1, _ => by simp [charListLE] at h1
  | _ :: _, _ :: _, [], _, h2 => by simp [charListLE] at h2
  | a :: as, b :: bs, c :: cs, h1, h2 => by
    by_cases hab : a < b
    · by_cases hbc : b < c
      · simp [charListLE, lt_trans hab hbc]
      · by_cases hcb : c < b
        · simp [charListLE, hbc, hcb] at h2
        · have hbc' : b = c := le_antisymm (not_lt.mp hcb) (not_lt.mp hbc)
          subst hbc'
          simp [charListLE, hab]
    · by_cases hba : b < a
      · simp [charListLE, hab, hba] at h1
      · have hab' : a = b := le_antisymm (not_lt.mp hba) (not_lt.mp hab)
        subst hab'
        have h1' : charListLE as bs = true := by simpa [charListLE, hab] using h1
        by_cases hac : a < c
        · simp [charListLE, hac]
        · by_cases hca : c < a
          · simp [charListLE, hac, hca] at h2
          · have h2' : charListLE bs cs = true := by simpa [charListLE, hac, hca] using h2
            simp [charListLE, hac, hca, charListLE_trans as bs cs h1' h2']

theorem charListLE_antisymm : ∀ a b : List Char,
    charListLE a b = true → charListLE b a = true → a = b
  | [], [], _, _ => rfl
  | [], _ :: _, _, h2 => by simp [charListLE] at h2
  | _ :: _, [], h1, _ => by simp [charListLE] at h1
  | a :: as, b :: bs, h1, h2 => by
    by_cases hab : a < b
    · simp [charListLE, lt_asymm hab, hab] at h2
    · by_cases hba : b < a
      · simp [charListLE, hab, hba] at h1
      · have hab' : a = b := le_antisymm (not_lt.mp hba) (not_lt.mp hab)
        subst hab'
        have t1 : charListLE as bs = true := by simpa [charListLE, hab] using h1
        have t2 : charListLE bs as = true := by simpa [charListLE, hab] using h2
        rw [charListLE_antisymm as bs t1 t2]

/-- Python's string comparison `s <= t`, by which pandas `.sort_index()`
orders the sample identifiers. -/
def strLE (s t : String) : Prop := charListLE s.data t.data = true

instance : DecidableRel strLE := fun s t =>
  inferInstanceAs (Decidable (charListLE s.data t.data = true))

instance : IsTotal String strLE := ⟨fun s t => charListLE_total s.data t.data⟩

instance : IsTrans String strLE :=
  ⟨fun _ _ _ h1 h2 => charListLE_trans _ _ _ h1 h2⟩

theorem strLE_antisymm : ∀ s t : String, strLE s t → strLE t s → s = t := by
  intro s t h1 h2
  cases s; cases t
  exact congrArg String.mk (charListLE_antisymm _ _ h1 h2)

instance : IsAntisymm String strLE := ⟨strLE_antisymm⟩

/-- Ordering of output rows by their sample identifier, as
`.sort_index()` orders them. -/
def rowLE (a b : String × List Cell) : Prop := strLE a.1 b.1

instance : DecidableRel rowLE := fun a b =>
  inferInstanceAs (Decidable (charListLE a.1.data b.1.data = true))

instance : IsTotal (String × List Cell) rowLE :=
  ⟨fun a b => charListLE_total a.1.data b.1.data⟩

instance : IsTrans (String × List Cell) rowLE :=
  ⟨fun _ _ _ h1 h2 => charListLE_trans _ _ _ h1 h2⟩

/-- Strict version of `rowLE`, used to compare sorted outputs. -/
def rowLT (a b : String × List Cell) : Prop := strLE a.1 b.1 ∧ a.1 ≠ b.1

instance : IsAntisymm (String × List Cell) rowLT :=
  ⟨fun _ _ h1 h2 => absurd (strLE_antisymm _ _ h1.1 h2.1) h1.2⟩

/-- The `(sample id, cell row)` pair `process_variants` accumulates for one
file. -/
def fileEntry (focusVariants : List String) (stripText : String)
    (processCosmic : Bool) (idUpdater : Option (String → String))
    (vf : VariantFile) : String × List Cell :=
  (deriveSampleId stripText idUpdater vf.name,
   variantClassOf processCosmic focusVariants (variantSub vf.rows))

/-- The function `process_variants`: one entry per file of the directory,
assembled into a dataframe with the focus features as columns and the rows
sorted by sample identifier (`.sort_index()`). -/
def processVariants (variantDir : List VariantFile) (focusVariants : List String)
    (stripText : String) (processCosmic : Bool)
    (idUpdater : Option (String → String)) : OncoprintDF :=
  let entries := variantDir.map (fileEntry focusVariants stripText processCosmic idUpdater)
  { indexName := "Case.ID"
    columns := focusVariants
    rows := List.insertionSort rowLE entries }

/-- The marker recorded when a focus feature is found in a file:
`1` in COSMIC mode, `'MUT;'` in gene mode. -/
def presentCell (processCosmic : Bool) : Cell :=
  if processCosmic then Cell.num 1 else Cell.str "MUT;"

/-- The marker recorded when a focus feature is absent from a file:
`0` in COSMIC mode, `''` in gene mode. -/
def absentCell (processCosmic : Bool) : Cell :=
  if processCosmic then Cell.num 0 else Cell.str ""

/-- The column the membership test reads: `cosmic70` in COSMIC mode,
`Gene.refGene` in gene mode. -/
def relevantColumn (processCosmic : Bool) (r : VariantRow) : String :=
  if processCosmic then r.cosmic70 else r.geneRefGene

/-- The accumulation loop of `process_variants` when file loading may fail:
a file that fails to load is `none`, and the loop raises on the first such
file, producing no entry list at all. -/
def loadEntries (focusVariants : List String) (stripText : String)
    (processCosmic : Bool) (idUpdater : Option (String → String)) :
    List (String × Option (List VariantRow)) → Except String (List (String × List Cell))
  | [] => Except.ok []
  | (fname, none) :: _ => Except.error fname
  | (fname, some rows) :: rest =>
    match loadEntries focusVariants stripText processCosmic idUpdater rest with
    | Except.error e => Except.error e
    | Except.ok es =>
      Except.ok ((deriveSampleId stripText idUpdater fname,
                  variantClassOf processCosmic focusVariants (variantSub rows)) :: es)

/-- The run of `process_variants` when file loading may fail: any loading
failure aborts the whole invocation with no output; otherwise the usual
matrix is assembled. -/
def processVariantsE (variantDir : List (String × Option (List VariantRow)))
    (focusVariants : List String) (stripText : String) (processCosmic : Bool)
    (idUpdater : Option (String → String)) : Except String OncoprintDF :=
  match loadEntries focusVariants stripText processCosmic idUpdater variantDir with
  | Except.error e => Except.error e
  | Except.ok entries =>
    Except.ok { indexName := "Case.ID", columns := focusVariants,
                rows := List.insertionSort rowLE entries }

/-- Descending-count order used to model `value_counts()`. -/
def countGE (a b : String × Nat) : Prop := b.2 ≤ a.2

instance : DecidableRel countGE := fun a b =>
  inferInstanceAs (Decidable (b.2 ≤ a.2))

instance : IsTotal (String × Nat) countGE := ⟨fun a b => le_total b.2 a.2⟩

instance : IsTrans (String × Nat) countGE := ⟨fun _ _ _ h1 h2 => le_trans h2 h1⟩

/-- Modelled `series.value_counts()`: each distinct value of the column with
its number of occurrences, ordered by descending count. -/
def valueCounts (l : List String) : List (String × Nat) :=
  List.insertionSort countGE (l.dedup.map (fun v => (v, l.count v)))

/-- Modelled `series.value_counts().head(n).index.tolist()`. -/
def topValues (l : List String) (n : Nat) : List String :=
  ((valueCounts l).take n).map Prod.fst

/-- The construction of `paad_genes` from the `Gene.refGene` column of the
aggregate COSMIC table: `value_counts().head(50).index.tolist()` followed by
`paad_genes += ['ATM', 'RNF43']`. -/
def paadGenesOf (geneColumn : List String) : List String :=
  topValues geneColumn 50 ++ ["ATM", "RNF43"]

/-- A row of the prefiltered aggregate table, restricted to the two columns
the ad hoc amino-acid-change pass reads: `AAChange.refGene` and `final_id`. -/
structure PrefilteredRow where
  aaChangeRefGene : String
  finalId : String
deriving DecidableEq, Repr

/-- The reassignment
`cosmic_prefiltered_df = cosmic_prefiltered_df[cosmic_prefiltered_df['AAChange.refGene'] != '.']`. -/
def aaRestrict (df : List PrefilteredRow) : List PrefilteredRow :=
  df.filter (fun r => r.aaChangeRefGene ≠ ".")

/-- Modelled `set(cosmic_prefiltered_df['AAChange.refGene'])`, enumerated in
first-occurrence order. -/
def uniqueMutationsOf (df : List PrefilteredRow) : List String :=
  (df.map PrefilteredRow.aaChangeRefGene).dedup

/-- Modelled `set(cosmic_prefiltered_df['final_id'])`, enumerated in
first-occurrence order. -/
def finalIdsOf (df : List PrefilteredRow) : List String :=
  (df.map PrefilteredRow.finalId).dedup

/-- The ad hoc amino-acid-change pass (the final two notebook cells): after
restricting the prefiltered table to rows with a non-trivial
`AAChange.refGene`, walk the set of distinct `final_id` values, subset the
table to each value with `.query`, and record 1/0 membership of every unique
amino-acid change.  Unlike `process_variants`, no sort is applied. -/
def consensusMatrix (df0 : List PrefilteredRow) : OncoprintDF :=
  let df := aaRestrict df0
  let uniqueMutations := uniqueMutationsOf df
  { indexName := "Case.ID"
    columns := uniqueMutations
    rows := (finalIdsOf df).map (fun sampleId =>
      let sub := df.filter (fun r => r.finalId = sampleId)
      (sampleId,
       uniqueMutations.map (fun x =>
         if x ∈ sub.map PrefilteredRow.aaChangeRefGene then Cell.num 1
         else Cell.num 0))) }

theorem zip_map_self {α β : Type _} (f : α → β) (l : List α) :
    l.zip (l.map f) = l.map (fun a => (a, f a)) := by
  induction l with
  | nil => rfl
  | cons a l ih => simp [ih]

theorem variantClassOf_eq_map (processCosmic : Bool) (focusVariants : List String)
    (sub : List VariantRow) :
    variantClassOf processCosmic focusVariants sub
      = focusVariants.map (fun x =>
          if x ∈ sub.map (relevantColumn processCosmic) then presentCell processCosmic
          else absentCell processCosmic) := by
  cases processCosmic <;>
    simp [variantClassOf, relevantColumn, presentCell, absentCell]

theorem variantSub_idem (rows : List VariantRow) :
    variantSub (variantSub rows) = variantSub rows := by
  simp [variantSub, List.filter_filter]

theorem mem_rows_of_mem_dir (feats : List String) (strip : String) (pc : Bool)
    (u : Option (String → String)) {dir : List VariantFile} {vf : VariantFile}
    (h : vf ∈ dir) :
    fileEntry feats strip pc u vf ∈ (processVariants dir feats strip pc u).rows := by
  have h2 := List.mem_map_of_mem (fileEntry feats strip pc u) h
  simpa [processVariants, List.mem_insertionSort] using h2

theorem exists_file_of_mem_rows {dir : List VariantFile} {feats : List String}
    {strip : String} {pc : Bool} {u : Option (String → String)}
    {e : String × List Cell} (h : e ∈ (processVariants dir feats strip pc u).rows) :
    ∃ vf ∈ dir, e = fileEntry feats strip pc u vf := by
  have h2 : e ∈ dir.map (fileEntry feats strip pc u) := by
    simpa [processVariants, List.mem_insertionSort] using h
  obtain ⟨vf, hvf, he⟩ := List.mem_map.mp h2
  exact ⟨vf, hvf, he.symm⟩

theorem rows_pairwise (dir : List VariantFile) (feats : List String)
    (strip : String) (pc : Bool) (u : Option (String → String)) :
    List.Pairwise rowLE (processVariants dir feats strip pc u).rows :=
  List.sorted_insertionSort rowLE _

theorem pairwise_rowLT_of_rowLE {l : List (String × List Cell)}
    (hs : List.Pairwise rowLE l) (hnd : (l.map Prod.fst).Nodup) :
    List.Pairwise rowLT l := by
  have hne : List.Pairwise (fun a b : String × List Cell => a.1 ≠ b.1) l :=
    List.pairwise_map.mp hnd
  exact (hs.and hne).imp (fun h => ⟨h.1, h.2⟩)

theorem insertionSort_eq_of_perm {l1 l2 : List (String × List Cell)}
    (hp : l1.Perm l2) (hnd : (l1.map Prod.fst).Nodup) :
    List.insertionSort rowLE l1 = List.insertionSort rowLE l2 := by
  have hnd1 : ((List.insertionSort rowLE l1).map Prod.fst).Nodup :=
    (((List.perm_insertionSort rowLE l1).map Prod.fst).symm).nodup hnd
  have hnd2 : ((List.insertionSort rowLE l2).map Prod.fst).Nodup :=
    (((List.perm_insertionSort rowLE l2).map Prod.fst).symm).nodup
      ((hp.map Prod.fst).nodup hnd)
  exact List.eq_of_perm_of_sorted (r := rowLT)
    (((List.perm_insertionSort rowLE l1).trans hp).trans
      (List.perm_insertionSort rowLE l2).symm)
    (pairwise_rowLT_of_rowLE (List.sorted_insertionSort rowLE l1) hnd1)
    (pairwise_rowLT_of_rowLE (List.sorted_insertionSort rowLE l2) hnd2)

/-- C4: with no id_updater supplied (as in all four builder invocations),
the sample identifier recorded for every file of the directory is the
filename with the strip text removed; in particular stripping
`"_processed_variants.tsv.bz2"` from
`"SAMPLE001_processed_variants.tsv.bz2"` yields `"SAMPLE001"`. -/
theorem c4_sample_id_strip (dir : List VariantFile) (feats : List String)
    (strip : String) (pc : Bool) (vf : VariantFile) (h : vf ∈ dir) :
    (∃ e ∈ (processVariants dir feats strip pc none).rows,
        e.1 = pyReplace vf.name strip "") ∧
    pyReplace "SAMPLE001_processed_variants.tsv.bz2"
        "_processed_variants.tsv.bz2" "" = "SAMPLE001" := by
  refine ⟨⟨fileEntry feats strip pc none vf,
    mem_rows_of_mem_dir feats strip pc none h, rfl⟩, by decide⟩

/-- Witness for C4: the theorem applied to a one-file directory. -/
theorem c4_witness :
    (∃ e ∈ (processVariants [⟨"S1_x", []⟩] ["KRAS"] "_x" false none).rows,
        e.1 = pyReplace "S1_x" "_x" "") ∧
    pyReplace "SAMPLE001_processed_variants.tsv.bz2"
        "_processed_variants.tsv.bz2" "" = "SAMPLE001" :=
  c4_sample_id_strip [⟨"S1_x", []⟩] ["KRAS"] "_x" false ⟨"S1_x", []⟩ (by decide)

/-- C5 fails as stated: with an id_updater mapping the prefix token `"S1"`
to `"Z"`, the recorded identifier for file `"S1_x.tsv"` (strip text
`"_x.tsv"`) is the unstripped `"Z_x.tsv"`, not the strip-then-substitute
result `"Z"`: the code overwrites the stripped identifier with a
substitution applied to the original filename. -/
theorem c5_counterexample :
    (processVariants [⟨"S1_x.tsv", []⟩] [] "_x.tsv" false
        (some (fun s => if s = "S1" then "Z" else s))).rows
      = [("Z_x.tsv", [])] ∧
    ("Z_x.tsv" : String) ≠ "Z" := by decide

/-- C5 amended: when an id_updater is supplied, the recorded sample
identifier is the original, unstripped filename with every occurrence of
its prefix token (the part before the first underscore) replaced by the
token's value in the remapping table. -/
theorem c5_id_updater (dir : List VariantFile) (feats : List String)
    (strip : String) (pc : Bool) (upd : String → String)
    (vf : VariantFile) (h : vf ∈ dir) :
    ∃ e ∈ (processVariants dir feats strip pc (some upd)).rows,
      e.1 = pyReplace vf.name (firstToken vf.name) (upd (firstToken vf.name)) :=
  ⟨fileEntry feats strip pc (some upd) vf,
   mem_rows_of_mem_dir feats strip pc (some upd) h, rfl⟩

/-- Witness for the amended C5: the theorem applied to a one-file
directory with a concrete remapping. -/
theorem c5_witness :
    ∃ e ∈ (processVariants [⟨"S1_x.tsv", []⟩] [] "_x.tsv" false
        (some (fun s => if s = "S1" then "Z" else s))).rows,
      e.1 = pyReplace "S1_x.tsv" (firstToken "S1_x.tsv")
        ((fun s => if s = "S1" then "Z" else s) (firstToken "S1_x.tsv")) :=
  c5_id_updater [⟨"S1_x.tsv", []⟩] [] "_x.tsv" false
    (fun s => if s = "S1" then "Z" else s) ⟨"S1_x.tsv", []⟩ (by decide)

/-- C1 fails as stated: a file whose only row carries gene `"KRAS"` but no
COSMIC annotation (`cosmic70 = '.'`) contains `"KRAS"` in the gene-name
column, yet its output cell at column `"KRAS"` is the empty string, not
`'MUT;'`, because membership is tested only after the COSMIC filter. -/
theorem c1_counterexample :
    ("KRAS" ∈ ([⟨".", "KRAS"⟩] : List VariantRow).map VariantRow.geneRefGene) ∧
    (processVariants [⟨"f1_x", [⟨".", "KRAS"⟩]⟩] ["KRAS"] "_x" false none).rows
      = [("f1", [Cell.str ""])] ∧
    Cell.str "" ≠ Cell.str "MUT;" := by decide

/-- C1 amended: for a feature F of the focus list, if a file of the
directory contains F in the relevant column among its rows that carry a
COSMIC annotation (`cosmic70 != '.'`), the output row for that file's
derived sample identifier holds the present marker (1 / `'MUT;'`) at every
column equal to F; and if no file of the directory contains F in the
relevant column at all, every cell of column F holds the absent marker
(0 / `''`). -/
theorem c1_membership (dir : List VariantFile) (feats : List String)
    (strip : String) (pc : Bool) (u : Option (String → String)) (F : String)
    (vf : VariantFile) (hvf : vf ∈ dir) :
    (F ∈ (variantSub vf.rows).map (relevantColumn pc) →
      ∃ e ∈ (processVariants dir feats strip pc u).rows,
        e.1 = deriveSampleId strip u vf.name ∧
        ∀ p ∈ feats.zip e.2, p.1 = F → p.2 = presentCell pc) ∧
    ((∀ wf ∈ dir, F ∉ wf.rows.map (relevantColumn pc)) →
      ∀ e ∈ (processVariants dir feats strip pc u).rows,
        ∀ p ∈ feats.zip e.2, p.1 = F → p.2 = absentCell pc) := by
  constructor
  · intro hF
    refine ⟨fileEntry feats strip pc u vf,
      mem_rows_of_mem_dir feats strip pc u hvf, rfl, ?_⟩
    intro p hp hpF
    have hz : feats.zip (fileEntry feats strip pc u vf).2
        = feats.map (fun x =>
            (x, if x ∈ (variantSub vf.rows).map (relevantColumn pc)
                then presentCell pc else absentCell pc)) := by
      rw [show (fileEntry feats strip pc u vf).2
            = variantClassOf pc feats (variantSub vf.rows) from rfl,
          variantClassOf_eq_map, zip_map_self]
    rw [hz] at hp
    obtain ⟨x, _, hx⟩ := List.mem_map.mp hp
    have hx1 : x = F := by rw [← hx] at hpF; exact hpF
    subst hx1
    rw [← hx]
    simp [hF]
  · intro hnone e he p hp hpF
    obtain ⟨wf, hwf, rfl⟩ := exists_file_of_mem_rows he
    have hz : feats.zip (fileEntry feats strip pc u wf).2
        = feats.map (fun x =>
            (x, if x ∈ (variantSub wf.rows).map (relevantColumn pc)
                then presentCell pc else absentCell pc)) := by
      rw [show (fileEntry feats strip pc u wf).2
            = variantClassOf pc feats (variantSub wf.rows) from rfl,
          variantClassOf_eq_map, zip_map_self]
    rw [hz] at hp
    obtain ⟨x, _, hx⟩ := List.mem_map.mp hp
    have hx1 : x = F := by rw [← hx] at hpF; exact hpF
    have hsub : x ∉ (variantSub wf.rows).map (relevantColumn pc) := by
      intro hmem
      exact hnone wf hwf
        (hx1 ▸ (((List.filter_sublist wf.rows).map (relevantColumn pc)).subset hmem))
    rw [← hx]
    simp [hsub]

/-- Witness for the amended C1: the two-file KRAS/BRCA1 example of the
specification. -/
theorem c1_witness :
    (("KRAS" : String) ∈ (variantSub [⟨"COSM1", "KRAS"⟩]).map (relevantColumn false) →
      ∃ e ∈ (processVariants
          [⟨"A_x", [⟨"COSM1", "KRAS"⟩]⟩, ⟨"B_x", [⟨"COSM2", "TP53"⟩]⟩]
          ["KRAS", "BRCA1"] "_x" false none).rows,
        e.1 = deriveSampleId "_x" none "A_x" ∧
        ∀ p ∈ (["KRAS", "BRCA1"] : List String).zip e.2,
          p.1 = "KRAS" → p.2 = presentCell false) ∧
    ((∀ wf ∈ [(⟨"A_x", [⟨"COSM1", "KRAS"⟩]⟩ : VariantFile), ⟨"B_x", [⟨"COSM2", "TP53"⟩]⟩],
        ("KRAS" : String) ∉ wf.rows.map (relevantColumn false)) →
      ∀ e ∈ (processVariants
          [⟨"A_x", [⟨"COSM1", "KRAS"⟩]⟩, ⟨"B_x", [⟨"COSM2", "TP53"⟩]⟩]
          ["KRAS", "BRCA1"] "_x" false none).rows,
        ∀ p ∈ (["KRAS", "BRCA1"] : List String).zip e.2,
          p.1 = "KRAS" → p.2 = absentCell false) :=
  c1_membership [⟨"A_x", [⟨"COSM1", "KRAS"⟩]⟩, ⟨"B_x", [⟨"COSM2", "TP53"⟩]⟩]
    ["KRAS", "BRCA1"] "_x" false none "KRAS" ⟨"A_x", [⟨"COSM1", "KRAS"⟩]⟩ (by decide)

/-- C2 fails as stated: two distinct filenames, `"S"` and `"S_v1"`, both
derive the sample identifier `"S"` under strip text `"_v1"`, and the output
then has two rows while there is a single distinct derived identifier —
duplicate identifiers are not deduplicated. -/
theorem c2_counterexample :
    ((processVariants [⟨"S", []⟩, ⟨"S_v1", []⟩] ["KRAS"] "_v1" false none).rows.length
      = 2) ∧
    ((([⟨"S", []⟩, ⟨"S_v1", []⟩] : List VariantFile).map
        (fun vf => deriveSampleId "_v1" none vf.name)).dedup.length = 1) := by
  decide

/-- C2 amended: the output columns are exactly the input feature list (same
length, same order, each feature exactly as often as in the input list);
the row index is the derived sample identifiers of the directory's files,
one per file with duplicates retained — hence row count equals file count —
arranged in sorted order. -/
theorem c2_matrix_shape (dir : List VariantFile) (feats : List String)
    (strip : String) (pc : Bool) (u : Option (String → String)) :
    (processVariants dir feats strip pc u).columns = feats ∧
    (processVariants dir feats strip pc u).rows.length = dir.length ∧
    (processVariants dir feats strip pc u).rows.map Prod.fst
      = List.insertionSort strLE
          (dir.map (fun vf => deriveSampleId strip u vf.name)) := by
  refine ⟨rfl, ?_, ?_⟩
  · simp [processVariants, List.length_insertionSort]
  · have hids : (dir.map (fileEntry feats strip pc u)).map Prod.fst
        = dir.map (fun vf => deriveSampleId strip u vf.name) := by
      rw [List.map_map]; rfl
    have hperm : ((processVariants dir feats strip pc u).rows.map Prod.fst).Perm
        (List.insertionSort strLE
          (dir.map (fun vf => deriveSampleId strip u vf.name))) := by
      refine ((List.perm_insertionSort rowLE _).map Prod.fst).trans ?_
      rw [hids]
      exact (List.perm_insertionSort strLE _).symm
    have hs1 : List.Pairwise strLE
        ((processVariants dir feats strip pc u).rows.map Prod.fst) :=
      List.pairwise_map.mpr (rows_pairwise dir feats strip pc u)
    exact List.eq_of_perm_of_sorted (r := strLE) hperm hs1
      (List.sorted_insertionSort strLE _)

/-- C3: rows whose `cosmic70` value is the sentinel `'.'` are discarded
before any membership test — pre-filtering every file leaves the output
unchanged — and a file all of whose rows are discarded still contributes a
row of absent markers (all 0 / all `''`) rather than being omitted. -/
theorem c3_cosmic_filter (dir : List VariantFile) (feats : List String)
    (strip : String) (pc : Bool) (u : Option (String → String))
    (vf : VariantFile) :
    processVariants dir feats strip pc u
      = processVariants
          (dir.map (fun f => ⟨f.name, variantSub f.rows⟩)) feats strip pc u ∧
    (vf ∈ dir → (∀ r ∈ vf.rows, r.cosmic70 = ".") →
      ∃ e ∈ (processVariants dir feats strip pc u).rows,
        e.1 = deriveSampleId strip u vf.name ∧
        e.2 = feats.map (fun _ => absentCell pc)) := by
  constructor
  · have hmap : dir.map (fileEntry feats strip pc u)
        = (dir.map (fun f => (⟨f.name, variantSub f.rows⟩ : VariantFile))).map
            (fileEntry feats strip pc u) := by
      rw [List.map_map]
      apply List.map_congr_left
      intro f _
      simp [Function.comp, fileEntry, variantSub_idem]
    simp [processVariants, ← hmap]
  · intro hvf hall
    refine ⟨fileEntry feats strip pc u vf,
      mem_rows_of_mem_dir feats strip pc u hvf, rfl, ?_⟩
    have hempty : variantSub vf.rows = [] := by
      simp only [variantSub]
      rw [List.filter_eq_nil_iff]
      intro r hr
      simp [hall r hr]
    rw [show (fileEntry feats strip pc u vf).2
          = variantClassOf pc feats (variantSub vf.rows) from rfl,
        variantClassOf_eq_map, hempty]
    simp

/-- Witness for C3: the theorem applied to a directory with one file whose
single row lacks a COSMIC annotation. -/
theorem c3_witness :
    processVariants [⟨"A_x", [⟨".", "KRAS"⟩]⟩] ["KRAS"] "_x" false none
      = processVariants
          (([⟨"A_x", [⟨".", "KRAS"⟩]⟩] : List VariantFile).map
            (fun f => ⟨f.name, variantSub f.rows⟩)) ["KRAS"] "_x" false none ∧
    ((⟨"A_x", [⟨".", "KRAS"⟩]⟩ : VariantFile) ∈
        ([⟨"A_x", [⟨".", "KRAS"⟩]⟩] : List VariantFile) →
      (∀ r ∈ ([⟨".", "KRAS"⟩] : List VariantRow), r.cosmic70 = ".") →
      ∃ e ∈ (processVariants [⟨"A_x", [⟨".", "KRAS"⟩]⟩] ["KRAS"] "_x" false none).rows,
        e.1 = deriveSampleId "_x" none "A_x" ∧
        e.2 = (["KRAS"] : List String).map (fun _ => absentCell false)) :=
  c3_cosmic_filter [⟨"A_x", [⟨".", "KRAS"⟩]⟩] ["KRAS"] "_x" false none
    ⟨"A_x", [⟨".", "KRAS"⟩]⟩

/-- C6 fails as stated: the two COSMIC-ID invocations pass
`unique_cosmic_ids`, a Python `set`, whose enumeration order is not
determined by the inputs; enumerating the same two-element set in its two
orders yields different output matrices, so re-running is not guaranteed
byte-identical. -/
theorem c6_counterexample :
    (["COSM1", "COSM2"] : List String).Perm ["COSM2", "COSM1"] ∧
    processVariants [⟨"A_x", [⟨"COSM1", "KRAS"⟩]⟩] ["COSM1", "COSM2"] "_x" true none
      ≠ processVariants [⟨"A_x", [⟨"COSM1", "KRAS"⟩]⟩] ["COSM2", "COSM1"] "_x" true none := by
  constructor
  · exact List.Perm.swap "COSM2" "COSM1" []
  · decide

/-- C6 amended: with the feature collection enumerated in a fixed order,
the builder is deterministic: its columns are exactly that enumeration and
its rows are explicitly sorted by sample identifier; byte-identical output
across runs therefore holds whenever the feature enumeration is unchanged,
which the gene-list invocations guarantee and the set-valued COSMIC-ID
invocations do not. -/
theorem c6_sorted_output (dir : List VariantFile) (feats : List String)
    (strip : String) (pc : Bool) (u : Option (String → String)) :
    (processVariants dir feats strip pc u).columns = feats ∧
    List.Pairwise rowLE (processVariants dir feats strip pc u).rows :=
  ⟨rfl, rows_pairwise dir feats strip pc u⟩

/-- C10: with unchanged file contents and pairwise distinct derived sample
identifiers, the output of `process_variants` is invariant under the order
in which the directory's files are enumerated. -/
theorem c10_order_invariance (dir1 dir2 : List VariantFile) (feats : List String)
    (strip : String) (pc : Bool) (u : Option (String → String))
    (hperm : dir1.Perm dir2)
    (hnd : (dir1.map (fun vf => deriveSampleId strip u vf.name)).Nodup) :
    processVariants dir1 feats strip pc u = processVariants dir2 feats strip pc u := by
  have hids : (dir1.map (fileEntry feats strip pc u)).map Prod.fst
      = dir1.map (fun vf => deriveSampleId strip u vf.name) := by
    rw [List.map_map]; rfl
  have h : List.insertionSort rowLE (dir1.map (fileEntry feats strip pc u))
      = List.insertionSort rowLE (dir2.map (fileEntry feats strip pc u)) := by
    apply insertionSort_eq_of_perm (hperm.map _)
    rw [hids]
    exact hnd
  simp [processVariants, h]

/-- Witness for C10: the theorem applied to a two-file directory and its
reversal. -/
theorem c10_witness :
    processVariants [⟨"A_x", [⟨"COSM1", "KRAS"⟩]⟩, ⟨"B_x", []⟩]
        ["KRAS"] "_x" false none
      = processVariants [⟨"B_x", []⟩, ⟨"A_x", [⟨"COSM1", "KRAS"⟩]⟩]
        ["KRAS"] "_x" false none :=
  c10_order_invariance
    [⟨"A_x", [⟨"COSM1", "KRAS"⟩]⟩, ⟨"B_x", []⟩]
    [⟨"B_x", []⟩, ⟨"A_x", [⟨"COSM1", "KRAS"⟩]⟩]
    ["KRAS"] "_x" false none
    (List.Perm.swap (⟨"B_x", []⟩ : VariantFile)
      (⟨"A_x", [⟨"COSM1", "KRAS"⟩]⟩ : VariantFile) ([] : List VariantFile))
    (by decide)

theorem loadEntries_error (feats : List String) (strip : String) (pc : Bool)
    (u : Option (String → String)) :
    ∀ dir : List (String × Option (List VariantRow)),
      (∃ p ∈ dir, p.2 = none) →
      ∃ msg, loadEntries feats strip pc u dir = Except.error msg
  | [], ⟨p, hp, _⟩ => absurd hp (List.not_mem_nil p)
  | (fname, none) :: _, _ => ⟨fname, rfl⟩
  | (fname, some rows) :: rest, ⟨p, hp, hp2⟩ => by
    rcases List.mem_cons.mp hp with h | hmem
    · rw [h] at hp2
      simp at hp2
    · obtain ⟨msg, hmsg⟩ := loadEntries_error feats strip pc u rest ⟨p, hmem, hp2⟩
      exact ⟨msg, by simp [loadEntries, hmsg]⟩

theorem loadEntries_length (feats : List String) (strip : String) (pc : Bool)
    (u : Option (String → String)) :
    ∀ dir : List (String × Option (List VariantRow)),
      ∀ es, loadEntries feats strip pc u dir = Except.ok es → es.length = dir.length
  | [], es, h => by
    simp [loadEntries] at h
    simp [← h]
  | (fname, none) :: _, es, h => by
    simp [loadEntries] at h
  | (fname, some rows) :: rest, es, h => by
    cases hrec : loadEntries feats strip pc u rest with
    | error e => rw [loadEntries, hrec] at h; exact absurd h (by simp)
    | ok es2 =>
      rw [loadEntries, hrec] at h
      have hes : es = (deriveSampleId strip u fname,
          variantClassOf pc feats (variantSub rows)) :: es2 := by
        cases h; rfl
      rw [hes]
      simp [loadEntries_length feats strip pc u rest es2 hrec]

/-- C7 fails as stated: an empty processed directory does not abort the
run — the builder completes and yields an empty matrix carrying only the
feature columns and the `Case.ID` header. -/
theorem c7_counterexample :
    processVariantsE [] ["KRAS"] "_x" false none
      = Except.ok ⟨"Case.ID", ["KRAS"], []⟩ := rfl

/-- C7 amended: no error handling is present — a file that fails to load
aborts the whole builder invocation with an error and no partial output —
but an empty directory is not an error: whenever the invocation succeeds,
its output holds the full feature-column list and exactly one row per
directory file (an empty directory giving an empty matrix). -/
theorem c7_error_propagation (dir : List (String × Option (List VariantRow)))
    (feats : List String) (strip : String) (pc : Bool)
    (u : Option (String → String)) :
    ((∃ p ∈ dir, p.2 = none) →
      ∃ msg, processVariantsE dir feats strip pc u = Except.error msg) ∧
    (∀ out, processVariantsE dir feats strip pc u = Except.ok out →
      out.columns = feats ∧ out.rows.length = dir.length) := by
  constructor
  · intro hbad
    obtain ⟨msg, hmsg⟩ := loadEntries_error feats strip pc u dir hbad
    exact ⟨msg, by simp [processVariantsE, hmsg]⟩
  · intro out hout
    cases hrec : loadEntries feats strip pc u dir with
    | error e =>
      rw [processVariantsE, hrec] at hout
      exact absurd hout (by simp)
    | ok es =>
      rw [processVariantsE, hrec] at hout
      have hes : out = ⟨"Case.ID", feats, List.insertionSort rowLE es⟩ := by
        cases hout; rfl
      rw [hes]
      exact ⟨rfl, by
        simp [List.length_insertionSort,
          loadEntries_length feats strip pc u dir es hrec]⟩

/-- Witness for the amended C7: a directory whose single file fails to
load aborts the invocation. -/
theorem c7_witness :
    (∃ msg, processVariantsE [("bad.tsv", none)] ["KRAS"] "_x" false none
        = Except.error msg) ∧
    ((∀ out, processVariantsE [("bad.tsv", none)] ["KRAS"] "_x" false none
        = Except.ok out →
      out.columns = ["KRAS"] ∧ out.rows.length = 1)) :=
  ⟨(c7_error_propagation [("bad.tsv", none)] ["KRAS"] "_x" false none).1
      ⟨("bad.tsv", none), by decide, rfl⟩,
   (c7_error_propagation [("bad.tsv", none)] ["KRAS"] "_x" false none).2⟩

/-- C8 fails as stated: the construction appends `['ATM', 'RNF43']` without
deduplication, so on an aggregate table whose gene column is `["ATM"]` the
feature list comes out as `["ATM", "ATM", "RNF43"]` — a feature appears
twice. -/
theorem c8_counterexample :
    paadGenesOf ["ATM"] = ["ATM", "ATM", "RNF43"] ∧
    ¬ (paadGenesOf ["ATM"]).Nodup := by decide

/-- C8 amended: the gene feature list is the 50 most frequent gene names of
the aggregate COSMIC table — a duplicate-free list in non-increasing count
order — followed by the appended allow-list `['ATM', 'RNF43']`; the
combined list is duplicate-free exactly when neither `'ATM'` nor `'RNF43'`
already occurs among the top 50, since the code performs no
deduplication. -/
theorem c8_feature_list (geneColumn : List String) :
    paadGenesOf geneColumn = topValues geneColumn 50 ++ ["ATM", "RNF43"] ∧
    (topValues geneColumn 50).Nodup ∧
    List.Pairwise (fun a b => b ≤ a) ((valueCounts geneColumn).map Prod.snd) ∧
    ((paadGenesOf geneColumn).Nodup ↔
      "ATM" ∉ topValues geneColumn 50 ∧ "RNF43" ∉ topValues geneColumn 50) := by
  have hfst : (geneColumn.dedup.map (fun v => (v, geneColumn.count v))).map Prod.fst
      = geneColumn.dedup := by
    rw [List.map_map]
    exact List.map_id geneColumn.dedup
  have hndvc : ((valueCounts geneColumn).map Prod.fst).Nodup := by
    have hperm : ((valueCounts geneColumn).map Prod.fst).Perm
        ((geneColumn.dedup.map (fun v => (v, geneColumn.count v))).map Prod.fst) :=
      (List.perm_insertionSort countGE _).map Prod.fst
    rw [hfst] at hperm
    exact hperm.symm.nodup (List.nodup_dedup geneColumn)
  have hndtop : (topValues geneColumn 50).Nodup := by
    have hsub : ((valueCounts geneColumn).take 50).map Prod.fst
        |>.Sublist ((valueCounts geneColumn).map Prod.fst) :=
      (List.take_sublist 50 (valueCounts geneColumn)).map Prod.fst
    exact hsub.nodup hndvc
  refine ⟨rfl, hndtop, ?_, ?_⟩
  · exact List.pairwise_map.mpr (List.sorted_insertionSort countGE _)
  · rw [paadGenesOf, List.nodup_append]
    constructor
    · rintro ⟨-, -, hdisj⟩
      exact ⟨fun h => hdisj h (by decide), fun h => hdisj h (by decide)⟩
    · rintro ⟨hA, hR⟩
      refine ⟨hndtop, by decide, ?_⟩
      intro a ha hmem
      rcases List.mem_cons.mp hmem with rfl | hmem2
      · exact hA ha
      · rcases List.mem_cons.mp hmem2 with rfl | hmem3
        · exact hR ha
        · exact absurd hmem3 (List.not_mem_nil a)

/-- C9: the ad hoc amino-acid-change pass draws its rows from the
prefiltered table restricted to `AAChange.refGene != '.'`: its row index is
exactly the set of distinct `final_id` values of the restricted table (no
filename is consulted, no group repeats), its columns are exactly the
distinct amino-acid changes of the restricted table, and a cell is 1
precisely when the group has a row bearing that amino-acid change, else
0. -/
theorem c9_consensus_pass (df0 : List PrefilteredRow) :
    (consensusMatrix df0).rows.map Prod.fst = finalIdsOf (aaRestrict df0) ∧
    ((consensusMatrix df0).rows.map Prod.fst).Nodup ∧
    (∀ g, g ∈ (consensusMatrix df0).rows.map Prod.fst ↔
      ∃ r ∈ df0, r.aaChangeRefGene ≠ "." ∧ r.finalId = g) ∧
    (∀ m, m ∈ (consensusMatrix df0).columns ↔
      ∃ r ∈ df0, r.aaChangeRefGene = m ∧ m ≠ ".") ∧
    (∀ e ∈ (consensusMatrix df0).rows,
      ∀ p ∈ ((consensusMatrix df0).columns).zip e.2,
        (p.2 = Cell.num 1 ↔
          ∃ r ∈ df0, r.finalId = e.1 ∧ r.aaChangeRefGene = p.1) ∧
        (p.2 = Cell.num 1 ∨ p.2 = Cell.num 0)) := by
  have hcols : (consensusMatrix df0).columns = uniqueMutationsOf (aaRestrict df0) := rfl
  have hrows : (consensusMatrix df0).rows
      = (finalIdsOf (aaRestrict df0)).map (fun sampleId =>
          (sampleId,
           (uniqueMutationsOf (aaRestrict df0)).map (fun x =>
             if x ∈ ((aaRestrict df0).filter
                 (fun r => r.finalId = sampleId)).map PrefilteredRow.aaChangeRefGene
             then Cell.num 1 else Cell.num 0))) := rfl
  have hmapfst : (consensusMatrix df0).rows.map Prod.fst = finalIdsOf (aaRestrict df0) := by
    rw [hrows, List.map_map]
    exact List.map_id _
  refine ⟨hmapfst, ?_, ?_, ?_, ?_⟩
  · rw [hmapfst]
    exact List.nodup_dedup _
  · intro g
    rw [hmapfst]
    simp only [finalIdsOf, List.mem_dedup, List.mem_map, aaRestrict, List.mem_filter]
    constructor
    · rintro ⟨r, ⟨hr, hne⟩, hid⟩
      exact ⟨r, hr, by simpa using hne, hid⟩
    · rintro ⟨r, hr, hne, hid⟩
      exact ⟨r, ⟨hr, by simpa using hne⟩, hid⟩
  · intro m
    rw [hcols]
    simp only [uniqueMutationsOf, List.mem_dedup, List.mem_map, aaRestrict,
      List.mem_filter]
    constructor
    · rintro ⟨r, ⟨hr, hne⟩, haa⟩
      exact ⟨r, hr, haa, by rw [← haa]; simpa using hne⟩
    · rintro ⟨r, hr, haa, hne⟩
      exact ⟨r, ⟨hr, by rw [haa]; simpa using hne⟩, haa⟩
  · intro e he p hp
    rw [hrows] at he
    obtain ⟨g, hg, hge⟩ := List.mem_map.mp he
    rw [← hge] at hp ⊢
    rw [hcols] at hp
    rw [zip_map_self] at hp
    obtain ⟨x, hxmem, hx⟩ := List.mem_map.mp hp
    rw [← hx]
    have hxne : x ≠ "." := by
      simp only [uniqueMutationsOf, List.mem_dedup, List.mem_map, aaRestrict,
        List.mem_filter] at hxmem
      obtain ⟨r, ⟨-, hne⟩, haa⟩ := hxmem
      rw [← haa]
      simpa using hne
    constructor
    · constructor
      · intro h1
        by_cases hmem : x ∈ ((aaRestrict df0).filter
            (fun r => r.finalId = g)).map PrefilteredRow.aaChangeRefGene
        · simp only [List.mem_map, List.mem_filter, aaRestrict] at hmem
          obtain ⟨r, ⟨⟨hr, -⟩, hid⟩, haa⟩ := hmem
          exact ⟨r, hr, by simpa using hid, haa⟩
        · rw [if_neg hmem] at h1
          simp at h1
      · rintro ⟨r, hr, hid, haa⟩
        have hmem : x ∈ ((aaRestrict df0).filter
            (fun r => r.finalId = g)).map PrefilteredRow.aaChangeRefGene := by
          simp only [List.mem_map, List.mem_filter, aaRestrict]
          exact ⟨r, ⟨⟨hr, by simp [haa, hxne]⟩, by simpa using hid⟩, haa⟩
        rw [if_pos hmem]
    · by_cases hmem : x ∈ ((aaRestrict df0).filter
          (fun r => r.finalId = g)).map PrefilteredRow.aaChangeRefGene
      · exact Or.inl (if_pos hmem)
      · exact Or.inr (if_neg hmem)

end Oncoprint
